import Mathlib

/-
Verification of the harvest pipeline in src/harvest.py against its
natural-language specification.

The embedding is shallow: each Python function of the harvester is
translated into an executable Lean definition over explicit state.
  * validate_collection_uri  — URI validation (regex of an http(s) scheme
    modelled as the two possible literal matches of the anchored pattern,
    the advisory host check as a substring test).
  * query_sparql_endpoint    — the retry loop, with the outcome of each
    attempt supplied by an oracle (attempt index to outcome); the trace
    records the returned value, the backoff sleeps performed, and the
    number of query attempts made.  A loop that runs out of iterations
    without returning yields the implicit Python value None.
  * pageOffsets              — range(0, member_count, batch_size) of the
    driver loop in main (batch step must be positive, as in Python).
  * insert_results           — the reconciler, over an explicit relational
    store (terms, term_fields, translations, appeals, appeal_messages,
    users, autoincrement counters).  CURRENT_TIMESTAMP is an explicit
    clock argument.
Timestamps are modelled as natural numbers; SQL rows as structures in
lists, in insertion order; SELECT ... WHERE uri = ? fetchone as the first
matching element.
-/

/-! ## Attempt outcomes and the retry loop of query_sparql_endpoint -/

/-- A binding of a SPARQL result: a mapping from variable name to the
literal value string (the inner value key of the JSON object). -/
abbrev Binding := List (String × String)

/-- What one call of sparql.query().convert() does on a given attempt:
succeed with results, raise urllib HTTPError with a code, or raise some
other exception. -/
inductive AttemptOutcome where
  | success (results : List Binding)
  | httpError (code : Nat)
  | otherFailure
deriving DecidableEq

/-- The observable result of query_sparql_endpoint: the results returned,
an Exception raised (the harvester re-raises every failure as
Exception, the spec name for it being RemoteQueryError), or the implicit
None of a for-loop that ends without returning. -/
inductive FetchOutcome where
  | ok (results : List Binding)
  | raised
  | pyNone
deriving DecidableEq

/-- Trace of one call: result, the backoff sleeps performed in order, and
how many query attempts were made. -/
structure FetchTrace where
  result : FetchOutcome
  sleeps : List Nat
  attemptsMade : Nat
deriving DecidableEq

/-- The body of: for attempt in range(max_retries): try ... except.
The second Nat argument counts the iterations remaining, so the loop
starts with attempt 0 and max_retries iterations remaining. -/
def queryLoop (att : Nat → AttemptOutcome) (base_delay max_retries : Nat) :
    Nat → Nat → List Nat → Nat → FetchTrace
  | _, 0, sleeps, made => ⟨FetchOutcome.pyNone, sleeps, made⟩
  | attempt, remaining + 1, sleeps, made =>
    match att attempt with
    | AttemptOutcome.success r => ⟨FetchOutcome.ok r, sleeps, made + 1⟩
    | AttemptOutcome.httpError code =>
      if code = 502 then
        if attempt + 1 < max_retries then
          queryLoop att base_delay max_retries (attempt + 1) remaining
            (sleeps ++ [base_delay * 2 ^ attempt]) (made + 1)
        else ⟨FetchOutcome.raised, sleeps, made + 1⟩
      else ⟨FetchOutcome.raised, sleeps, made + 1⟩
    | AttemptOutcome.otherFailure => ⟨FetchOutcome.raised, sleeps, made + 1⟩

/-- query_sparql_endpoint(collection_uri, limit, offset, max_retries,
base_delay), abstracted over the endpoint behaviour att. -/
def query_sparql_endpoint (att : Nat → AttemptOutcome)
    (max_retries base_delay : Nat) : FetchTrace :=
  queryLoop att base_delay max_retries 0 max_retries [] 0

theorem queryLoop_all502 (att : Nat → AttemptOutcome) (d m : Nat) :
    ∀ (r a : Nat) (s : List Nat) (k : Nat), a + r = m → 1 ≤ r →
    (∀ i, i < m → att i = AttemptOutcome.httpError 502) →
    queryLoop att d m a r s k =
      ⟨FetchOutcome.raised, s ++ (List.range (r - 1)).map (fun i => d * 2 ^ (a + i)),
        k + r⟩ := by
  intro r
  induction r with
  | zero => intro a s k hsum hge hall; exact absurd hge (by omega)
  | succ rr ih =>
    intro a s k hsum hge hall
    have ha : a < m := by omega
    simp only [queryLoop, hall a ha]
    rw [if_pos trivial]
    cases rr with
    | zero =>
      rw [if_neg (by omega)]
      simp
    | succ rr2 =>
      rw [if_pos (by omega)]
      rw [ih (a + 1) (s ++ [d * 2 ^ a]) (k + 1) (by omega) (by omega) hall]
      have hexp : ∀ i : Nat, a + 1 + i = a + (i + 1) := by intro i; omega
      refine congrArg₂ (fun x y => FetchTrace.mk FetchOutcome.raised x y) ?_ (by omega)
      simp only [Nat.add_sub_cancel, List.range_succ_eq_map, List.map_cons, List.map_map,
        List.append_assoc, List.singleton_append]
      refine congrArg (fun z => s ++ (d * 2 ^ (a + 0) :: z)) ?_
      apply List.map_congr_left
      intro i _
      simp only [Function.comp_apply, Nat.succ_eq_add_one, hexp i]

/-- Claim C3: a page fetch whose query fails with HTTP 502 max_retries
times in a row raises the remote-query error after exactly
max_retries - 1 backoff sleeps of base_delay * 2 ^ 0, base_delay * 2 ^ 1,
and so on; a fetch that fails once with a 502 and then succeeds returns
the successful result after exactly one sleep of base_delay. -/
theorem retry_policy (att1 att2 : Nat → AttemptOutcome)
    (max_retries base_delay : Nat) (rs : List Binding)
    (h1 : 1 ≤ max_retries)
    (hall : ∀ i, i < max_retries → att1 i = AttemptOutcome.httpError 502)
    (h2 : 2 ≤ max_retries)
    (hfail : att2 0 = AttemptOutcome.httpError 502)
    (hsucc : att2 1 = AttemptOutcome.success rs) :
    query_sparql_endpoint att1 max_retries base_delay =
      ⟨FetchOutcome.raised,
        (List.range (max_retries - 1)).map (fun i => base_delay * 2 ^ i),
        max_retries⟩ ∧
    query_sparql_endpoint att2 max_retries base_delay =
      ⟨FetchOutcome.ok rs, [base_delay], 2⟩ := by
  constructor
  · rw [query_sparql_endpoint,
      queryLoop_all502 att1 base_delay max_retries max_retries 0 [] 0 (by omega) h1 hall]
    simp
  · obtain ⟨m2, rfl⟩ : ∃ m2, max_retries = m2 + 2 := ⟨max_retries - 2, by omega⟩
    rw [query_sparql_endpoint]
    simp only [queryLoop, hfail]
    rw [if_pos trivial, if_pos (by omega)]
    simp [hsucc]

/-- Witness oracle for C3 part 1: every attempt yields HTTP 502. -/
def cAttAll502 : Nat → AttemptOutcome := fun _ => AttemptOutcome.httpError 502

/-- Witness oracle for C3 part 2: a 502 then success with empty results. -/
def cAttOnce502 : Nat → AttemptOutcome := fun i =>
  if i = 0 then AttemptOutcome.httpError 502 else AttemptOutcome.success []

theorem retry_policy_witness :
    (1 ≤ 3) ∧ (2 ≤ 3) ∧
    query_sparql_endpoint cAttAll502 3 1 =
      ⟨FetchOutcome.raised, (List.range (3 - 1)).map (fun i => 1 * 2 ^ i), 3⟩ ∧
    query_sparql_endpoint cAttOnce502 3 1 = ⟨FetchOutcome.ok [], [1], 2⟩ := by
  refine ⟨by omega, by omega, ?_⟩
  exact retry_policy cAttAll502 cAttOnce502 3 1 [] (by omega)
    (fun i _ => rfl) (by omega) rfl rfl

/-- Claim C7: a page fetch failing with anything other than an HTTP 502
(another HTTP code, or a non-HTTP exception) raises the remote-query
error on the very first attempt, with no retry and no backoff sleep. -/
theorem nontransient_fails_fast (att : Nat → AttemptOutcome) (m d : Nat)
    (h1 : 1 ≤ m)
    (herr : (∃ c, att 0 = AttemptOutcome.httpError c ∧ c ≠ 502) ∨
      att 0 = AttemptOutcome.otherFailure) :
    query_sparql_endpoint att m d = ⟨FetchOutcome.raised, [], 1⟩ := by
  obtain ⟨m1, rfl⟩ : ∃ m1, m = m1 + 1 := ⟨m - 1, by omega⟩
  rw [query_sparql_endpoint]
  rcases herr with ⟨c, hc, hne⟩ | hother
  · simp only [queryLoop, hc]
    rw [if_neg hne]
  · simp only [queryLoop, hother]

/-- Witness oracle for C7: an HTTP 404 on the first attempt. -/
def cAtt404 : Nat → AttemptOutcome := fun _ => AttemptOutcome.httpError 404

theorem nontransient_fails_fast_witness :
    (1 ≤ 3) ∧
    cAtt404 0 = AttemptOutcome.httpError 404 ∧
    query_sparql_endpoint cAtt404 3 1 = ⟨FetchOutcome.raised, [], 1⟩ := by
  refine ⟨by omega, rfl, ?_⟩
  exact nontransient_fails_fast cAtt404 3 1 (by omega)
    (Or.inl ⟨404, rfl, by omega⟩)

/-- Claim C10: with max_retries = 0 (Python: any non-positive value makes
range(max_retries) empty) the fetch performs no query attempt, no sleep,
and returns the implicit None, neither a result set nor a raised error. -/
theorem zero_retries_returns_none (att : Nat → AttemptOutcome) (d : Nat) :
    query_sparql_endpoint att 0 d = ⟨FetchOutcome.pyNone, [], 0⟩ := rfl

/-! ## validate_collection_uri -/

/-- Does pat occur at the head of l (character list version)? -/
def startsWithL : List Char → List Char → Bool
  | [], _ => true
  | _ :: _, [] => false
  | p :: ps, c :: cs => p == c && startsWithL ps cs

/-- Does pat occur anywhere inside l? -/
def containsL (pat : List Char) : List Char → Bool
  | [] => pat.isEmpty
  | c :: cs => startsWithL pat (c :: cs) || containsL pat cs

/-- re.match of an anchored literal pattern: the string starts with pat. -/
def startsWithSub (s pat : String) : Bool := startsWithL pat.toList s.toList

/-- The Python expression: pat in s. -/
def containsSub (s pat : String) : Bool := containsL pat.toList s.toList

/-- The three observable behaviours of validate_collection_uri: raise
ValueError, return True after printing the advisory warning, or return
True silently. -/
inductive Validation where
  | invalid
  | okWarn
  | ok
deriving DecidableEq

/-- validate_collection_uri(uri).  The anchored regex of an http or https
scheme matches exactly the strings starting with one of the two literal
scheme texts. -/
def validate_collection_uri (uri : String) : Validation :=
  if startsWithSub uri "http://" || startsWithSub uri "https://" then
    if containsSub uri "vocab.nerc.ac.uk" then Validation.ok else Validation.okWarn
  else Validation.invalid

/-- Claim C6: validation raises exactly on identifiers lacking an absolute
http:// or https:// head; the ftp identifier is rejected, the foreign-host
https identifier passes with the advisory warning, and the NERC collection
identifier passes silently. -/
theorem validation_boundary :
    (∀ uri : String, validate_collection_uri uri = Validation.invalid ↔
      (startsWithSub uri "http://" || startsWithSub uri "https://") = false) ∧
    validate_collection_uri "ftp://example.org/x" = Validation.invalid ∧
    validate_collection_uri "https://example.org/foo" = Validation.okWarn ∧
    validate_collection_uri "http://vocab.nerc.ac.uk/collection/P07/current/" =
      Validation.ok := by
  refine ⟨?_, by decide, by decide, by decide⟩
  intro uri
  unfold validate_collection_uri
  cases h : (startsWithSub uri "http://" || startsWithSub uri "https://") with
  | false => simp
  | true =>
    cases h2 : containsSub uri "vocab.nerc.ac.uk" <;> simp [h2]

/-! ## Paging of the driver loop in main -/

/-- The offsets of range(0, n, b): the multiples of b below n (b positive,
as the fixed batch_size 1000 of the driver is). -/
def pageOffsets (n b : Nat) : List Nat :=
  (List.range ((n + b - 1) / b)).map (fun i => i * b)

theorem lt_pageCount_iff (n b i : Nat) (hb : 0 < b) :
    i < (n + b - 1) / b ↔ i * b < n := by
  constructor
  · intro h
    have h2 : (i + 1) * b ≤ n + b - 1 := (Nat.le_div_iff_mul_le hb).mp h
    have h3 : (i + 1) * b = i * b + b := by ring
    rw [h3] at h2
    omega
  · intro h
    have h2 : (i + 1) * b ≤ n + b - 1 := by
      have h3 : (i + 1) * b = i * b + b := by ring
      rw [h3]; omega
    exact (Nat.le_div_iff_mul_le hb).mpr h2

theorem mem_pageOffsets_iff (n b i : Nat) (hb : 0 < b) :
    i * b ∈ pageOffsets n b ↔ i * b < n := by
  unfold pageOffsets
  constructor
  · rintro hm
    rw [List.mem_map] at hm
    obtain ⟨j, hj, hjb⟩ := hm
    rw [List.mem_range] at hj
    have := (lt_pageCount_iff n b j hb).mp hj
    omega
  · intro h
    rw [List.mem_map]
    exact ⟨i, List.mem_range.mpr ((lt_pageCount_iff n b i hb).mpr h), rfl⟩

/-- Claim C8: for total count N and batch size B the driver fetches the
consecutive windows at offsets 0, B, 2B, ...: the offsets are exactly
the multiples of B below N, every member index below N lies in exactly
one window (no gaps), and the windows are pairwise disjoint and visited
in ascending order (no overlaps). -/
theorem paging_partition (N B : Nat) (hB : 0 < B) :
    (∀ i, i * B ∈ pageOffsets N B ↔ i * B < N) ∧
    (∀ x, x < N → ∃ o, o ∈ pageOffsets N B ∧ o ≤ x ∧ x < o + B) ∧
    (∀ o, o ∈ pageOffsets N B → o < N) ∧
    List.Pairwise (fun a b => a + B ≤ b) (pageOffsets N B) := by
  refine ⟨fun i => mem_pageOffsets_iff N B i hB, ?_, ?_, ?_⟩
  · intro x hx
    refine ⟨x / B * B, ?_, Nat.div_mul_le_self x B, ?_⟩
    · exact (mem_pageOffsets_iff N B (x / B) hB).mpr
        (lt_of_le_of_lt (Nat.div_mul_le_self x B) hx)
    · have hm := Nat.div_add_mod x B
      have hlt := Nat.mod_lt x hB
      have hcomm : x / B * B = B * (x / B) := Nat.mul_comm _ _
      omega
  · intro o ho
    unfold pageOffsets at ho
    rw [List.mem_map] at ho
    obtain ⟨j, hj, rfl⟩ := ho
    rw [List.mem_range] at hj
    exact (lt_pageCount_iff N B j hB).mp hj
  · unfold pageOffsets
    rw [List.pairwise_map]
    refine List.Pairwise.imp ?_ (List.pairwise_lt_range _)
    intro a c h
    calc a * B + B = (a + 1) * B := by ring
    _ ≤ c * B := Nat.mul_le_mul_right B h

theorem paging_partition_witness :
    (0 < 2) ∧
    ((∀ i, i * 2 ∈ pageOffsets 5 2 ↔ i * 2 < 5) ∧
     (∀ x, x < 5 → ∃ o, o ∈ pageOffsets 5 2 ∧ o ≤ x ∧ x < o + 2) ∧
     (∀ o, o ∈ pageOffsets 5 2 → o < 5) ∧
     List.Pairwise (fun a b => a + 2 ≤ b) (pageOffsets 5 2)) :=
  ⟨by omega, paging_partition 5 2 (by omega)⟩

/-! ## The relational store and the reconciler insert_results -/

/-- A row of terms(id, uri, created_at, updated_at). -/
structure Term where
  id : Nat
  uri : String
  created_at : Nat
  updated_at : Nat
deriving DecidableEq

/-- A row of term_fields(id, term_id, field_uri, field_term,
original_value, created_at, updated_at). -/
structure TermField where
  id : Nat
  term_id : Nat
  field_uri : String
  field_term : String
  original_value : String
  created_at : Nat
  updated_at : Nat
deriving DecidableEq

/-- A row of translations; the harvest never reads nor writes this table,
so the audit columns beyond the reconciler-visible surface are kept to the
identifying ones. -/
structure Translation where
  id : Nat
  term_field_id : Nat
  language : String
  value : String
  status : String
  created_by : String
deriving DecidableEq

/-- A row of appeals (downstream workflow table, opaque to the harvest). -/
structure Appeal where
  id : Nat
  translation_id : Nat
  opened_by : String
  status : String
deriving DecidableEq

/-- A row of appeal_messages (downstream workflow table, opaque to the
harvest). -/
structure AppealMessage where
  id : Nat
  appeal_id : Nat
  author : String
  message : String
deriving DecidableEq

/-- A row of users (downstream workflow table, opaque to the harvest). -/
structure User where
  username : String
  reputation : Int
deriving DecidableEq

/-- The SQLite database: one list of rows per table, in insertion order,
plus the AUTOINCREMENT counters of the two tables the harvest inserts
into. -/
structure Store where
  terms : List Term
  term_fields : List TermField
  translations : List Translation
  appeals : List Appeal
  appeal_messages : List AppealMessage
  users : List User
  next_term_id : Nat
  next_term_field_id : Nat
deriving DecidableEq

/-- binding.get(name, {}).get("value"): the value bound to a variable
name in one result binding, if any. -/
def bget : Binding → String → Option String
  | [], _ => none
  | (k, v) :: rest, key => if k == key then some v else bget rest key

/-- One entry of FIELD_MAPPINGS: SPARQL variable name, field URI and
human-readable field term. -/
structure FieldMapping where
  name : String
  field_uri : String
  field_term : String
deriving DecidableEq

/-- FIELD_MAPPINGS of harvest.py, in dict insertion order. -/
def FIELD_MAPPINGS : List FieldMapping :=
  [ ⟨"prefLabel", "http://www.w3.org/2004/02/skos/core#prefLabel", "skos:prefLabel"⟩,
    ⟨"altLabel", "http://www.w3.org/2004/02/skos/core#altLabel", "skos:altLabel"⟩,
    ⟨"definition", "http://www.w3.org/2004/02/skos/core#definition", "skos:definition"⟩,
    ⟨"notation", "http://www.w3.org/2004/02/skos/core#notation", "skos:notation"⟩,
    ⟨"broader", "http://www.w3.org/2004/02/skos/core#broader", "skos:broader"⟩,
    ⟨"narrower", "http://www.w3.org/2004/02/skos/core#narrower", "skos:narrower"⟩,
    ⟨"related", "http://www.w3.org/2004/02/skos/core#related", "skos:related"⟩ ]

/-- SELECT id FROM terms WHERE uri = ? followed by fetchone: the first
row whose uri matches. -/
def findTerm (ts : List Term) (uri : String) : Option Term :=
  ts.find? (fun t => t.uri == uri)

/-- UPDATE terms SET updated_at = CURRENT_TIMESTAMP WHERE uri = ?. -/
def touchTerm (now : Nat) (ts : List Term) (uri : String) : List Term :=
  ts.map (fun t => if t.uri == uri then { t with updated_at := now } else t)

/-- Does a term_fields row with this (term_id, field_uri, original_value)
unique key already exist? -/
def hasFact (tfs : List TermField) (tid : Nat) (furi v : String) : Bool :=
  tfs.any (fun tf => tf.term_id == tid && tf.field_uri == furi && tf.original_value == v)

/-- INSERT OR IGNORE INTO term_fields (term_id, field_uri, field_term,
original_value) VALUES (?, ?, ?, ?): ignored when the unique key
(term_id, field_uri, original_value) is already present, otherwise a new
row is appended; the Bool is cursor.rowcount > 0. -/
def insertTermField (s : Store) (tid : Nat) (furi fterm v : String) (now : Nat) :
    Store × Bool :=
  if hasFact s.term_fields tid furi v then (s, false)
  else
    ({ s with
        term_fields := s.term_fields ++
          [⟨s.next_term_field_id, tid, furi, fterm, v, now, now⟩],
        next_term_field_id := s.next_term_field_id + 1 }, true)

/-- The three counters insert_results prints as its per-page summary. -/
structure InsertStats where
  terms_inserted : Nat
  terms_updated : Nat
  term_fields_inserted : Nat
deriving DecidableEq

/-- The loop state of insert_results: connection contents, counters and
the terms_processed set (as the list of concepts added so far). -/
structure RunState where
  store : Store
  stats : InsertStats
  processed : List String

/-- The per-concept block of insert_results: look the term up by uri;
update its updated_at if present, insert a new terms row if absent;
record the concept in terms_processed.  Skipped entirely when the
concept was already processed in this call. -/
def resolveTerm (now : Nat) (rs : RunState) (c : String) : RunState :=
  if rs.processed.contains c then rs
  else
    match findTerm rs.store.terms c with
    | some _ =>
      { store := { rs.store with terms := touchTerm now rs.store.terms c },
        stats := { rs.stats with terms_updated := rs.stats.terms_updated + 1 },
        processed := c :: rs.processed }
    | none =>
      { store := { rs.store with
                    terms := rs.store.terms ++ [⟨rs.store.next_term_id, c, now, now⟩],
                    next_term_id := rs.store.next_term_id + 1 },
        stats := { rs.stats with terms_inserted := rs.stats.terms_inserted + 1 },
        processed := c :: rs.processed }

/-- One iteration of the field loop of insert_results: if the binding
carries a truthy value for this mapping, attempt the term_fields insert
and count it when a row was actually inserted. -/
def processField (now : Nat) (b : Binding) (tid : Nat) (rs : RunState)
    (fm : FieldMapping) : RunState :=
  match bget b fm.name with
  | none => rs
  | some v =>
    if v = "" then rs
    else
      let p := insertTermField rs.store tid fm.field_uri fm.field_term v now
      { rs with
          store := p.1,
          stats :=
            if p.2 then
              { rs.stats with term_fields_inserted := rs.stats.term_fields_inserted + 1 }
            else rs.stats }

/-- One iteration of the binding loop of insert_results: skip bindings
with an empty or missing concept; otherwise resolve the Term, re-select
its id, and insert the fields present in the binding. -/
def processBinding (now : Nat) (rs : RunState) (b : Binding) : RunState :=
  if (bget b "concept").getD "" = "" then rs
  else
    let c := (bget b "concept").getD ""
    let rs1 := resolveTerm now rs c
    match findTerm rs1.store.terms c with
    | none => rs1
    | some t => FIELD_MAPPINGS.foldl (processField now b t.id) rs1

/-- insert_results(conn, collection_uri, results): fold the bindings into
the store, starting from zero counters and an empty terms_processed set;
returns the committed store and the printed per-page summary counts. -/
def insert_results (now : Nat) (s : Store) (bindings : List Binding) :
    Store × InsertStats :=
  let rs := bindings.foldl (processBinding now)
    ⟨s, ⟨0, 0, 0⟩, []⟩
  (rs.store, rs.stats)

/-- The driver loop of main: fetch and reconcile one batch per offset,
carrying the connection; the second component lists, in order, the
per-page summaries that insert_results prints (main itself prints no
counts). -/
def harvestLoop (now : Nat) (pages : Nat → List Binding) :
    List Nat → Store → Store × List InsertStats
  | [], s => (s, [])
  | off :: rest, s =>
    let r := insert_results now s (pages off)
    let k := harvestLoop now pages rest r.1
    (k.1, r.2 :: k.2)

/-- main with member_count known: batch_size is fixed at 1000, the pages
are fetched at range(0, member_count, 1000) in order. -/
def harvest_pages (now member_count : Nat) (pages : Nat → List Binding)
    (s : Store) : Store × List InsertStats :=
  harvestLoop now pages (pageOffsets member_count 1000) s

/-- Componentwise sum of a list of per-page summaries. -/
def sumStats (l : List InsertStats) : InsertStats :=
  l.foldl
    (fun a x =>
      ⟨a.terms_inserted + x.terms_inserted,
       a.terms_updated + x.terms_updated,
       a.term_fields_inserted + x.term_fields_inserted⟩)
    ⟨0, 0, 0⟩

/-- The per-page summaries of a run, described page by page: what the
driver makes insert_results print for each offset in turn. -/
def pageStats (now : Nat) (pages : Nat → List Binding) :
    List Nat → Store → List InsertStats
  | [], _ => []
  | off :: rest, s =>
    (insert_results now s (pages off)).2 ::
      pageStats now pages rest (insert_results now s (pages off)).1

/-! ## List-level facts about term lookup -/

theorem findTerm_cons (t : Term) (ts : List Term) (c : String) :
    findTerm (t :: ts) c = if t.uri == c then some t else findTerm ts c := by
  cases h : (t.uri == c) <;> simp [findTerm, List.find?_cons, h]

theorem findTerm_append_some {ts1 : List Term} (ts2 : List Term) {c : String}
    {t : Term} (h : findTerm ts1 c = some t) :
    findTerm (ts1 ++ ts2) c = some t := by
  induction ts1 with
  | nil => simp [findTerm] at h
  | cons x xs ih =>
    rw [List.cons_append, findTerm_cons]
    rw [findTerm_cons] at h
    cases hx : (x.uri == c) with
    | true => rw [hx] at h; simpa using h
    | false => rw [hx] at h; simpa using ih h

theorem findTerm_append_none {ts1 : List Term} (ts2 : List Term) {c : String}
    (h : findTerm ts1 c = none) :
    findTerm (ts1 ++ ts2) c = findTerm ts2 c := by
  induction ts1 with
  | nil => simp
  | cons x xs ih =>
    rw [findTerm_cons] at h
    cases hx : (x.uri == c) with
    | true => rw [hx] at h; simp at h
    | false =>
      rw [hx] at h
      rw [List.cons_append, findTerm_cons, hx]
      simpa using ih (by simpa using h)

/-- Row correspondence that forgets updated_at: same id, uri and
created_at. -/
def sameRow (a b : Term) : Prop :=
  b.id = a.id ∧ b.uri = a.uri ∧ b.created_at = a.created_at

theorem forall2_sameRow_refl (l : List Term) : List.Forall₂ sameRow l l := by
  induction l with
  | nil => exact List.Forall₂.nil
  | cons t ts ih => exact List.Forall₂.cons ⟨rfl, rfl, rfl⟩ ih

theorem forall2_sameRow_trans {a b c : List Term}
    (h1 : List.Forall₂ sameRow a b) (h2 : List.Forall₂ sameRow b c) :
    List.Forall₂ sameRow a c := by
  induction h1 generalizing c with
  | nil => cases h2; exact List.Forall₂.nil
  | cons hxy htail ih =>
    cases h2 with
    | cons hyz htail2 =>
      exact List.Forall₂.cons
        ⟨hyz.1.trans hxy.1, hyz.2.1.trans hxy.2.1, hyz.2.2.trans hxy.2.2⟩
        (ih htail2)

theorem forall2_touch {S ts : List Term} (now : Nat) (u : String)
    (h : List.Forall₂ sameRow S ts) :
    List.Forall₂ sameRow S (touchTerm now ts u) := by
  induction h with
  | nil => exact List.Forall₂.nil
  | cons hab htail ih =>
    refine List.Forall₂.cons ?_ ih
    rename_i a b l1 l2
    cases hx : (b.uri == u) <;> simp [touchTerm, hx] <;>
      exact ⟨hab.1, hab.2.1, hab.2.2⟩

theorem findTerm_cons_eq {t : Term} (ts : List Term) {c : String} (h : t.uri = c) :
    findTerm (t :: ts) c = some t := by
  simp [findTerm, List.find?_cons, h]

theorem findTerm_cons_ne {t : Term} (ts : List Term) {c : String} (h : ¬ t.uri = c) :
    findTerm (t :: ts) c = findTerm ts c := by
  simp [findTerm, List.find?_cons, h]

theorem findTerm_forall2 {l l2 : List Term}
    (h : List.Forall₂ sameRow l l2) (c : String) :
    (findTerm l c = none → findTerm l2 c = none) ∧
    (∀ t, findTerm l c = some t →
      ∃ t2, findTerm l2 c = some t2 ∧ sameRow t t2) := by
  induction h with
  | nil => exact ⟨fun _ => rfl, fun t ht => by simp [findTerm] at ht⟩
  | cons hab htail ih =>
    rename_i a b l1 l2x
    by_cases hx : a.uri = c
    · have hb : b.uri = c := hab.2.1.trans hx
      constructor
      · intro hn
        rw [findTerm_cons_eq l1 hx] at hn
        exact absurd hn (by simp)
      · intro t ht
        rw [findTerm_cons_eq l1 hx] at ht
        rw [findTerm_cons_eq l2x hb]
        refine ⟨b, rfl, ?_⟩
        have hat : a = t := by injection ht
        subst hat
        exact hab
    · have hb : ¬ b.uri = c := by rw [hab.2.1]; exact hx
      constructor
      · intro hn
        rw [findTerm_cons_ne l1 hx] at hn
        rw [findTerm_cons_ne l2x hb]
        exact ih.1 hn
      · intro t ht
        rw [findTerm_cons_ne l1 hx] at ht
        rw [findTerm_cons_ne l2x hb]
        exact ih.2 t ht

/-! ## What one harvest write can do to the store -/

/-- The shape of every store transition the reconciler performs: term
lookup results keep their ids, term_fields only grows at the end, the
four downstream tables are untouched, and every existing terms row
survives with its id, uri and created_at intact. -/
structure StoreStep (s s2 : Store) : Prop where
  find_mono : ∀ c t, findTerm s.terms c = some t →
    ∃ t2, findTerm s2.terms c = some t2 ∧ t2.id = t.id
  fields_ext : ∃ l, s2.term_fields = s.term_fields ++ l
  tr_eq : s2.translations = s.translations
  ap_eq : s2.appeals = s.appeals
  am_eq : s2.appeal_messages = s.appeal_messages
  us_eq : s2.users = s.users
  terms_kept : ∀ t, t ∈ s.terms → ∃ t2, t2 ∈ s2.terms ∧
    t2.id = t.id ∧ t2.uri = t.uri ∧ t2.created_at = t.created_at

theorem StoreStep.refl (s : Store) : StoreStep s s :=
  ⟨fun _ t h => ⟨t, h, rfl⟩, ⟨[], by simp⟩, rfl, rfl, rfl, rfl,
    fun t ht => ⟨t, ht, rfl, rfl, rfl⟩⟩

theorem StoreStep.trans {a b c : Store} (h1 : StoreStep a b)
    (h2 : StoreStep b c) : StoreStep a c := by
  refine ⟨?_, ?_, h2.tr_eq.trans h1.tr_eq, h2.ap_eq.trans h1.ap_eq,
    h2.am_eq.trans h1.am_eq, h2.us_eq.trans h1.us_eq, ?_⟩
  · intro u t h
    obtain ⟨t2, h2f, hid2⟩ := h1.find_mono u t h
    obtain ⟨t3, h3f, hid3⟩ := h2.find_mono u t2 h2f
    exact ⟨t3, h3f, hid3.trans hid2⟩
  · obtain ⟨l1, e1⟩ := h1.fields_ext
    obtain ⟨l2, e2⟩ := h2.fields_ext
    exact ⟨l1 ++ l2, by rw [e2, e1, List.append_assoc]⟩
  · intro t ht
    obtain ⟨t2, ht2, a1, a2, a3⟩ := h1.terms_kept t ht
    obtain ⟨t3, ht3, b1, b2, b3⟩ := h2.terms_kept t2 ht2
    exact ⟨t3, ht3, b1.trans a1, b2.trans a2, b3.trans a3⟩

theorem touch_step (now : Nat) (s : Store) (u : String) :
    StoreStep s { s with terms := touchTerm now s.terms u } := by
  have h2 : List.Forall₂ sameRow s.terms (touchTerm now s.terms u) :=
    forall2_touch now u (forall2_sameRow_refl s.terms)
  refine ⟨?_, ⟨[], by simp⟩, rfl, rfl, rfl, rfl, ?_⟩
  · intro c t h
    obtain ⟨t2, h2f, hsr⟩ := (findTerm_forall2 h2 c).2 t h
    exact ⟨t2, h2f, hsr.1⟩
  · intro t ht
    refine ⟨if t.uri == u then { t with updated_at := now } else t, ?_, ?_, ?_, ?_⟩
    · exact List.mem_map_of_mem _ ht
    · by_cases hx : t.uri = u <;> simp [hx]
    · by_cases hx : t.uri = u <;> simp [hx]
    · by_cases hx : t.uri = u <;> simp [hx]

theorem insert_term_step (s : Store) (newT : Term) (nid : Nat) :
    StoreStep s { s with terms := s.terms ++ [newT], next_term_id := nid } := by
  refine ⟨?_, ⟨[], by simp⟩, rfl, rfl, rfl, rfl, ?_⟩
  · intro c t h
    exact ⟨t, findTerm_append_some [newT] h, rfl⟩
  · intro t ht
    exact ⟨t, List.mem_append_left _ ht, rfl, rfl, rfl⟩

theorem insertTermField_step (s : Store) (tid : Nat) (furi fterm v : String)
    (now : Nat) : StoreStep s (insertTermField s tid furi fterm v now).1 := by
  unfold insertTermField
  by_cases h : hasFact s.term_fields tid furi v
  · rw [if_pos h]
    exact StoreStep.refl s
  · rw [if_neg h]
    exact ⟨fun c t hf => ⟨t, hf, rfl⟩,
      ⟨[⟨s.next_term_field_id, tid, furi, fterm, v, now, now⟩], rfl⟩,
      rfl, rfl, rfl, rfl, fun t ht => ⟨t, ht, rfl, rfl, rfl⟩⟩

theorem processField_step (now : Nat) (b : Binding) (tid : Nat)
    (rs : RunState) (fm : FieldMapping) :
    StoreStep rs.store (processField now b tid rs fm).store := by
  cases hb : bget b fm.name with
  | none =>
    simp only [processField, hb]
    exact StoreStep.refl _
  | some v =>
    by_cases hv : v = ""
    · simp only [processField, hb, if_pos hv]
      exact StoreStep.refl _
    · simp only [processField, hb, if_neg hv]
      exact insertTermField_step rs.store tid fm.field_uri fm.field_term v now

theorem resolveTerm_step (now : Nat) (rs : RunState) (c : String) :
    StoreStep rs.store (resolveTerm now rs c).store := by
  unfold resolveTerm
  by_cases hp : rs.processed.contains c
  · rw [if_pos hp]
    exact StoreStep.refl _
  · rw [if_neg hp]
    cases h : findTerm rs.store.terms c with
    | some t => exact touch_step now rs.store c
    | none => exact insert_term_step rs.store _ _

/-- Fold a step-preserved, reflexive, transitive relation over a list. -/
theorem foldl_rel {α β : Type} (P : α → α → Prop) (hrefl : ∀ x, P x x)
    (htrans : ∀ x y z, P x y → P y z → P x z) (f : α → β → α)
    (hstep : ∀ x y, P x (f x y)) (l : List β) (x : α) : P x (l.foldl f x) := by
  induction l generalizing x with
  | nil => exact hrefl x
  | cons y l ih => exact htrans _ _ _ (hstep x y) (ih (f x y))

theorem foldl_storestep {β : Type} (f : RunState → β → RunState)
    (hstep : ∀ x y, StoreStep x.store (f x y).store) :
    ∀ (l : List β) (x : RunState), StoreStep x.store (l.foldl f x).store := by
  intro l
  induction l with
  | nil => intro x; exact StoreStep.refl _
  | cons y l ih => intro x; exact StoreStep.trans (hstep x y) (ih (f x y))

theorem fieldFold_storestep (now : Nat) (b : Binding) (tid : Nat)
    (fms : List FieldMapping) (rs : RunState) :
    StoreStep rs.store ((fms.foldl (processField now b tid) rs)).store :=
  foldl_storestep _ (fun x y => processField_step now b tid x y) fms rs

theorem processBinding_storestep (now : Nat) (rs : RunState) (b : Binding) :
    StoreStep rs.store (processBinding now rs b).store := by
  by_cases hc : (bget b "concept").getD "" = ""
  · simp only [processBinding, if_pos hc]
    exact StoreStep.refl _
  · simp only [processBinding, if_neg hc]
    cases h : findTerm (resolveTerm now rs ((bget b "concept").getD "")).store.terms
        ((bget b "concept").getD "") with
    | none => exact resolveTerm_step now rs _
    | some t =>
      exact StoreStep.trans (resolveTerm_step now rs _)
        (fieldFold_storestep now b t.id FIELD_MAPPINGS _)

theorem insert_results_storestep (now : Nat) (s : Store) (bs : List Binding) :
    StoreStep s (insert_results now s bs).1 :=
  foldl_storestep _ (fun x y => processBinding_storestep now x y) bs
    ⟨s, ⟨0, 0, 0⟩, []⟩

/-- Claim C2: for every store state and harvested record set, the harvest
leaves translations, appeals, appeal_messages and users untouched, deletes
no terms or term_fields row (term_fields rows survive byte-for-byte, terms
rows keep id, uri and created_at), so absent attributes never delete
stored TermFields and any Translation attached to an existing TermField
survives re-harvest unchanged. -/
theorem harvest_frame (now : Nat) (s : Store) (bs : List Binding) :
    (insert_results now s bs).1.translations = s.translations ∧
    (insert_results now s bs).1.appeals = s.appeals ∧
    (insert_results now s bs).1.appeal_messages = s.appeal_messages ∧
    (insert_results now s bs).1.users = s.users ∧
    (∀ tf, tf ∈ s.term_fields → tf ∈ (insert_results now s bs).1.term_fields) ∧
    (∀ t, t ∈ s.terms → ∃ t2, t2 ∈ (insert_results now s bs).1.terms ∧
      t2.id = t.id ∧ t2.uri = t.uri ∧ t2.created_at = t.created_at) := by
  have h := insert_results_storestep now s bs
  refine ⟨h.tr_eq, h.ap_eq, h.am_eq, h.us_eq, ?_, h.terms_kept⟩
  intro tf htf
  obtain ⟨l, hl⟩ := h.fields_ext
  rw [hl]
  exact List.mem_append_left _ htf

/-- A store holding one term_fields row (id 1, term 5, prefLabel, value
Foo) with a translation attached to it. -/
def cDupStore : Store :=
  ⟨[⟨5, "http://c", 0, 0⟩],
   [⟨1, 5, "http://www.w3.org/2004/02/skos/core#prefLabel", "skos:prefLabel", "Foo", 0, 0⟩],
   [⟨1, 1, "nl", "Vo", "draft", "alice"⟩],
   [], [], [], 6, 2⟩

/-- A run state over cDupStore with fresh counters. -/
def cDupRS : RunState := ⟨cDupStore, ⟨0, 0, 0⟩, []⟩

/-- A binding carrying the already-known prefLabel fact. -/
def cDupB : Binding := [("concept", "http://c"), ("prefLabel", "Foo")]

/-- The prefLabel field mapping. -/
def cFM : FieldMapping :=
  ⟨"prefLabel", "http://www.w3.org/2004/02/skos/core#prefLabel", "skos:prefLabel"⟩

/-- Claim C4: when a term_fields row with the identical (term,
field-identifier, value) triple already exists, the attempted insert is a
no-op: it returns the store unchanged (so any Translations attached to
the existing row are untouched), reports no inserted row, and the whole
field-processing step leaves state and counters exactly as they were. -/
theorem duplicate_fact_noop (now : Nat) (b : Binding) (tid : Nat)
    (rs : RunState) (fm : FieldMapping) (v : String)
    (hv : bget b fm.name = some v)
    (hdup : hasFact rs.store.term_fields tid fm.field_uri v = true) :
    insertTermField rs.store tid fm.field_uri fm.field_term v now = (rs.store, false) ∧
    processField now b tid rs fm = rs := by
  have h1 : insertTermField rs.store tid fm.field_uri fm.field_term v now =
      (rs.store, false) := by
    simp [insertTermField, hdup]
  refine ⟨h1, ?_⟩
  by_cases hv2 : v = ""
  · simp [processField, hv, hv2]
  · simp [processField, hv, hv2, h1]

theorem duplicate_fact_noop_witness :
    bget cDupB cFM.name = some "Foo" ∧
    hasFact cDupRS.store.term_fields 5 cFM.field_uri "Foo" = true ∧
    (insertTermField cDupRS.store 5 cFM.field_uri cFM.field_term "Foo" 0 =
        (cDupRS.store, false) ∧
      processField 0 cDupB 5 cDupRS cFM = cDupRS) :=
  ⟨by decide, by decide,
    duplicate_fact_noop 0 cDupB 5 cDupRS cFM "Foo" (by decide) (by decide)⟩

/-- Claim C5: no harvest run modifies the original_value of an existing
term_fields row — every stored row survives every run byte-for-byte —
and reconciling a differing value for the same (term, field-identifier)
appends a brand-new row with the new value, leaving the old row in
place. -/
theorem original_value_immutable (now : Nat) (s : Store) (bs : List Binding)
    (tid : Nat) (furi fterm vnew : String)
    (hfresh : hasFact s.term_fields tid furi vnew = false) :
    (∀ tf, tf ∈ s.term_fields → tf ∈ (insert_results now s bs).1.term_fields) ∧
    (insertTermField s tid furi fterm vnew now).1.term_fields =
      s.term_fields ++ [⟨s.next_term_field_id, tid, furi, fterm, vnew, now, now⟩] := by
  constructor
  · intro tf htf
    obtain ⟨l, hl⟩ := (insert_results_storestep now s bs).fields_ext
    rw [hl]
    exact List.mem_append_left _ htf
  · simp [insertTermField, hfresh]

theorem original_value_immutable_witness :
    hasFact cDupStore.term_fields 5
      "http://www.w3.org/2004/02/skos/core#prefLabel" "Bar" = false ∧
    ((∀ tf, tf ∈ cDupStore.term_fields →
        tf ∈ (insert_results 7 cDupStore [cDupB]).1.term_fields) ∧
      (insertTermField cDupStore 5 "http://www.w3.org/2004/02/skos/core#prefLabel"
          "skos:prefLabel" "Bar" 7).1.term_fields =
        cDupStore.term_fields ++
          [⟨cDupStore.next_term_field_id, 5,
            "http://www.w3.org/2004/02/skos/core#prefLabel", "skos:prefLabel",
            "Bar", 7, 7⟩]) :=
  ⟨by decide,
    original_value_immutable 7 cDupStore [cDupB] 5
      "http://www.w3.org/2004/02/skos/core#prefLabel" "skos:prefLabel" "Bar"
      (by decide)⟩

/-! ## Reconciler invariants for idempotence -/

/-- A term_fields row with this (term_id, field_uri, original_value)
unique key is on record. -/
def factIn (tfs : List TermField) (tid : Nat) (furi v : String) : Prop :=
  ∃ tf, tf ∈ tfs ∧ tf.term_id = tid ∧ tf.field_uri = furi ∧ tf.original_value = v

theorem factIn_append {tfs : List TermField} (l : List TermField)
    {tid : Nat} {furi v : String} (h : factIn tfs tid furi v) :
    factIn (tfs ++ l) tid furi v := by
  obtain ⟨tf, htf, e⟩ := h
  exact ⟨tf, List.mem_append_left _ htf, e⟩

theorem hasFact_iff (tfs : List TermField) (tid : Nat) (furi v : String) :
    hasFact tfs tid furi v = true ↔ factIn tfs tid furi v := by
  unfold hasFact factIn
  rw [List.any_eq_true]
  constructor
  · rintro ⟨tf, htf, hb⟩
    simp only [Bool.and_eq_true, beq_iff_eq] at hb
    exact ⟨tf, htf, hb.1.1, hb.1.2, hb.2⟩
  · rintro ⟨tf, htf, h1, h2, h3⟩
    exact ⟨tf, htf, by simp [h1, h2, h3]⟩

/-- The concept of a record has been fully reconciled into the store: the
term is on record and every truthy attribute value of the record is a
stored fact of that term. -/
def bindingDone (s : Store) (b : Binding) : Prop :=
  ((bget b "concept").getD "" = "") ∨
  (∃ t, findTerm s.terms ((bget b "concept").getD "") = some t ∧
    ∀ fm, fm ∈ FIELD_MAPPINGS → ∀ v, bget b fm.name = some v → ¬ v = "" →
      factIn s.term_fields t.id fm.field_uri v)

/-- Every concept in terms_processed has a terms row. -/
def processedOK (rs : RunState) : Prop :=
  ∀ c, c ∈ rs.processed → ∃ t, findTerm rs.store.terms c = some t

theorem bindingDone_mono {s s2 : Store} (h : StoreStep s s2) {b : Binding}
    (hd : bindingDone s b) : bindingDone s2 b := by
  rcases hd with hc | ⟨t, hf, hfacts⟩
  · exact Or.inl hc
  · obtain ⟨t2, hf2, hid⟩ := h.find_mono _ t hf
    refine Or.inr ⟨t2, hf2, ?_⟩
    intro fm hfm v hv hne
    obtain ⟨tf, htf, e1, e2, e3⟩ := hfacts fm hfm v hv hne
    obtain ⟨l, hl⟩ := h.fields_ext
    refine ⟨tf, ?_, ?_, e2, e3⟩
    · rw [hl]
      exact List.mem_append_left _ htf
    · rw [hid]
      exact e1

/-! ## Branch characterizations of the reconciler steps -/

theorem resolveTerm_skip (now : Nat) (rs : RunState) (c : String)
    (hp : rs.processed.contains c = true) : resolveTerm now rs c = rs := by
  have hm : c ∈ rs.processed := by simpa using hp
  simp [resolveTerm, hm]

theorem resolveTerm_some (now : Nat) (rs : RunState) (c : String) (t : Term)
    (hp : rs.processed.contains c = false)
    (hf : findTerm rs.store.terms c = some t) :
    resolveTerm now rs c =
      { store := { rs.store with terms := touchTerm now rs.store.terms c },
        stats := { rs.stats with terms_updated := rs.stats.terms_updated + 1 },
        processed := c :: rs.processed } := by
  have hm : c ∉ rs.processed := by simpa using hp
  simp [resolveTerm, hm, hf]

theorem resolveTerm_none (now : Nat) (rs : RunState) (c : String)
    (hp : rs.processed.contains c = false)
    (hf : findTerm rs.store.terms c = none) :
    resolveTerm now rs c =
      { store := { rs.store with
          terms := rs.store.terms ++ [⟨rs.store.next_term_id, c, now, now⟩],
          next_term_id := rs.store.next_term_id + 1 },
        stats := { rs.stats with terms_inserted := rs.stats.terms_inserted + 1 },
        processed := c :: rs.processed } := by
  have hm : c ∉ rs.processed := by simpa using hp
  simp [resolveTerm, hm, hf]

theorem processField_none (now : Nat) (b : Binding) (tid : Nat)
    (rs : RunState) (fm : FieldMapping) (h : bget b fm.name = none) :
    processField now b tid rs fm = rs := by
  simp [processField, h]

theorem processField_blank (now : Nat) (b : Binding) (tid : Nat)
    (rs : RunState) (fm : FieldMapping) (v : String)
    (h : bget b fm.name = some v) (hv : v = "") :
    processField now b tid rs fm = rs := by
  simp [processField, h, hv]

theorem processField_dup (now : Nat) (b : Binding) (tid : Nat)
    (rs : RunState) (fm : FieldMapping) (v : String)
    (h : bget b fm.name = some v) (hv : ¬ v = "")
    (hdup : hasFact rs.store.term_fields tid fm.field_uri v = true) :
    processField now b tid rs fm = rs := by
  simp [processField, h, hv, insertTermField, hdup]

theorem processField_new (now : Nat) (b : Binding) (tid : Nat)
    (rs : RunState) (fm : FieldMapping) (v : String)
    (h : bget b fm.name = some v) (hv : ¬ v = "")
    (hnew : hasFact rs.store.term_fields tid fm.field_uri v = false) :
    processField now b tid rs fm =
      { store := { rs.store with
          term_fields := rs.store.term_fields ++
            [⟨rs.store.next_term_field_id, tid, fm.field_uri, fm.field_term, v, now, now⟩],
          next_term_field_id := rs.store.next_term_field_id + 1 },
        stats := { rs.stats with
          term_fields_inserted := rs.stats.term_fields_inserted + 1 },
        processed := rs.processed } := by
  simp [processField, h, hv, insertTermField, hnew]

theorem processBinding_empty (now : Nat) (rs : RunState) (b : Binding)
    (hc : (bget b "concept").getD "" = "") : processBinding now rs b = rs := by
  simp [processBinding, hc]

theorem processBinding_go (now : Nat) (rs : RunState) (b : Binding) (t : Term)
    (hc : ¬ (bget b "concept").getD "" = "")
    (hf : findTerm (resolveTerm now rs ((bget b "concept").getD "")).store.terms
      ((bget b "concept").getD "") = some t) :
    processBinding now rs b =
      FIELD_MAPPINGS.foldl (processField now b t.id)
        (resolveTerm now rs ((bget b "concept").getD "")) := by
  simp [processBinding, hc, hf]

/-! ## Run one: every processed binding ends up reconciled -/

theorem fieldFold_establish (now : Nat) (b : Binding) (tid : Nat) :
    ∀ (fms : List FieldMapping) (rs : RunState),
      (fms.foldl (processField now b tid) rs).store.terms = rs.store.terms ∧
      (fms.foldl (processField now b tid) rs).processed = rs.processed ∧
      (∃ l, (fms.foldl (processField now b tid) rs).store.term_fields =
        rs.store.term_fields ++ l) ∧
      ∀ fm, fm ∈ fms → ∀ v, bget b fm.name = some v → ¬ v = "" →
        factIn (fms.foldl (processField now b tid) rs).store.term_fields
          tid fm.field_uri v := by
  intro fms
  induction fms with
  | nil =>
    intro rs
    exact ⟨rfl, rfl, ⟨[], by simp⟩, fun fm hfm => absurd hfm (List.not_mem_nil fm)⟩
  | cons fm rest ih =>
    intro rs
    rw [List.foldl_cons]
    cases hb : bget b fm.name with
    | none =>
      rw [processField_none now b tid rs fm hb]
      obtain ⟨h1, h2, h3, h4⟩ := ih rs
      refine ⟨h1, h2, h3, ?_⟩
      intro fm2 hfm2 v hv hne
      rcases List.mem_cons.mp hfm2 with rfl | hr
      · rw [hb] at hv
        exact absurd hv (by simp)
      · exact h4 fm2 hr v hv hne
    | some v0 =>
      by_cases hv0 : v0 = ""
      · rw [processField_blank now b tid rs fm v0 hb hv0]
        obtain ⟨h1, h2, h3, h4⟩ := ih rs
        refine ⟨h1, h2, h3, ?_⟩
        intro fm2 hfm2 v hv hne
        rcases List.mem_cons.mp hfm2 with rfl | hr
        · rw [hb] at hv
          have hvv : v = v0 := (Option.some.inj hv).symm
          exact absurd (hvv.trans hv0) hne
        · exact h4 fm2 hr v hv hne
      · by_cases hdup : hasFact rs.store.term_fields tid fm.field_uri v0 = true
        · rw [processField_dup now b tid rs fm v0 hb hv0 hdup]
          obtain ⟨h1, h2, h3, h4⟩ := ih rs
          refine ⟨h1, h2, h3, ?_⟩
          intro fm2 hfm2 v hv hne
          rcases List.mem_cons.mp hfm2 with rfl | hr
          · rw [hb] at hv
            have hvv : v0 = v := Option.some.inj hv
            obtain ⟨l, hl⟩ := h3
            rw [hl]
            exact factIn_append l (hvv ▸ (hasFact_iff _ _ _ _).mp hdup)
          · exact h4 fm2 hr v hv hne
        · have hnew : hasFact rs.store.term_fields tid fm.field_uri v0 = false := by
            simpa using hdup
          rw [processField_new now b tid rs fm v0 hb hv0 hnew]
          obtain ⟨h1, h2, h3, h4⟩ := ih
            { store := { rs.store with
                term_fields := rs.store.term_fields ++
                  [⟨rs.store.next_term_field_id, tid, fm.field_uri, fm.field_term, v0, now, now⟩],
                next_term_field_id := rs.store.next_term_field_id + 1 },
              stats := { rs.stats with
                term_fields_inserted := rs.stats.term_fields_inserted + 1 },
              processed := rs.processed }
          refine ⟨h1, h2, ?_, ?_⟩
          · obtain ⟨l, hl⟩ := h3
            refine ⟨⟨rs.store.next_term_field_id, tid, fm.field_uri, fm.field_term, v0, now, now⟩ :: l, ?_⟩
            rw [hl]
            simp
          · intro fm2 hfm2 v hv hne
            rcases List.mem_cons.mp hfm2 with heq | hr
            · subst heq
              rw [hb] at hv
              have hvv : v0 = v := Option.some.inj hv
              obtain ⟨l, hl⟩ := h3
              rw [hl]
              refine factIn_append l ?_
              refine ⟨⟨rs.store.next_term_field_id, tid, fm2.field_uri, fm2.field_term, v0, now, now⟩,
                ?_, rfl, rfl, hvv⟩
              show _ ∈ rs.store.term_fields ++
                [⟨rs.store.next_term_field_id, tid, fm2.field_uri, fm2.field_term, v0, now, now⟩]
              exact List.mem_append_right _ (by simp)
            · exact h4 fm2 hr v hv hne

theorem resolveTerm_establish (now : Nat) (rs : RunState) (c : String)
    (hOK : processedOK rs) :
    (∃ t1, findTerm (resolveTerm now rs c).store.terms c = some t1) ∧
    processedOK (resolveTerm now rs c) := by
  by_cases hp : rs.processed.contains c = true
  · rw [resolveTerm_skip now rs c hp]
    have hm : c ∈ rs.processed := by simpa using hp
    exact ⟨hOK c hm, hOK⟩
  · have hp2 : rs.processed.contains c = false := by simpa using hp
    cases hf : findTerm rs.store.terms c with
    | some t =>
      rw [resolveTerm_some now rs c t hp2 hf]
      have h2 := forall2_touch now c (forall2_sameRow_refl rs.store.terms)
      constructor
      · obtain ⟨t2, hf2, _⟩ := (findTerm_forall2 h2 c).2 t hf
        exact ⟨t2, hf2⟩
      · intro c2 hc2
        rcases List.mem_cons.mp hc2 with rfl | hold
        · obtain ⟨t2, hf2, _⟩ := (findTerm_forall2 h2 c2).2 t hf
          exact ⟨t2, hf2⟩
        · obtain ⟨t0, hf0⟩ := hOK c2 hold
          obtain ⟨t2, hf2, _⟩ := (findTerm_forall2 h2 c2).2 t0 hf0
          exact ⟨t2, hf2⟩
    | none =>
      rw [resolveTerm_none now rs c hp2 hf]
      constructor
      · show ∃ t1, findTerm
          (rs.store.terms ++ [⟨rs.store.next_term_id, c, now, now⟩]) c = some t1
        rw [findTerm_append_none _ hf]
        exact ⟨_, findTerm_cons_eq [] rfl⟩
      · intro c2 hc2
        show ∃ t1, findTerm
          (rs.store.terms ++ [⟨rs.store.next_term_id, c, now, now⟩]) c2 = some t1
        rcases List.mem_cons.mp hc2 with rfl | hold
        · rw [findTerm_append_none _ hf]
          exact ⟨_, findTerm_cons_eq [] rfl⟩
        · obtain ⟨t0, hf0⟩ := hOK c2 hold
          exact ⟨t0, findTerm_append_some _ hf0⟩

theorem processBinding_establish (now : Nat) (rs : RunState) (b : Binding)
    (hOK : processedOK rs) :
    processedOK (processBinding now rs b) ∧
    bindingDone (processBinding now rs b).store b := by
  by_cases hc : (bget b "concept").getD "" = ""
  · rw [processBinding_empty now rs b hc]
    exact ⟨hOK, Or.inl hc⟩
  · obtain ⟨⟨t1, hf1⟩, hOK1⟩ :=
      resolveTerm_establish now rs ((bget b "concept").getD "") hOK
    rw [processBinding_go now rs b t1 hc hf1]
    obtain ⟨h1, h2, h3, h4⟩ := fieldFold_establish now b t1.id FIELD_MAPPINGS
      (resolveTerm now rs ((bget b "concept").getD ""))
    constructor
    · intro c2 hc2
      rw [h2] at hc2
      obtain ⟨t0, hf0⟩ := hOK1 c2 hc2
      rw [h1]
      exact ⟨t0, hf0⟩
    · refine Or.inr ⟨t1, ?_, ?_⟩
      · rw [h1]
        exact hf1
      · intro fm hfm v hv hne
        exact h4 fm hfm v hv hne

theorem run1_inv (now : Nat) :
    ∀ (bs : List Binding) (rs : RunState), processedOK rs →
      processedOK (bs.foldl (processBinding now) rs) ∧
      ∀ b, b ∈ bs → bindingDone (bs.foldl (processBinding now) rs).store b := by
  intro bs
  induction bs with
  | nil =>
    intro rs h
    exact ⟨h, fun b hb => absurd hb (List.not_mem_nil b)⟩
  | cons b rest ih =>
    intro rs hOK
    obtain ⟨hOK2, hDone⟩ := processBinding_establish now rs b hOK
    obtain ⟨hOKf, hRest⟩ := ih (processBinding now rs b) hOK2
    rw [List.foldl_cons]
    refine ⟨hOKf, ?_⟩
    intro b2 hb2
    rcases List.mem_cons.mp hb2 with rfl | hr
    · exact bindingDone_mono
        (foldl_storestep _ (fun x y => processBinding_storestep now x y) rest _) hDone
    · exact hRest b2 hr

/-! ## Run two: a re-harvest over a reconciled store only touches
timestamps -/

/-- Refresh updated_at to the given clock on exactly the rows whose uri
is in the given list of concepts. -/
def touchIf (now2 : Nat) (cs : List String) : Term → Term :=
  fun t => if t.uri ∈ cs then { t with updated_at := now2 } else t

/-- A terms row is harvested by a record set when its uri is the
non-empty concept of some record; exactly these rows get their
updated_at refreshed by a re-run. -/
def isHarvested (bs : List Binding) (u : String) : Bool :=
  !(u == "") && bs.any (fun b => (bget b "concept").getD "" == u)

theorem isHarvested_iff (bs : List Binding) (u : String) :
    isHarvested bs u = true ↔
      (¬ u = "" ∧ ∃ b, b ∈ bs ∧ (bget b "concept").getD "" = u) := by
  unfold isHarvested
  rw [Bool.and_eq_true, List.any_eq_true]
  constructor
  · rintro ⟨h1, b, hb, h2⟩
    exact ⟨by simpa using h1, b, hb, by simpa using h2⟩
  · rintro ⟨h1, b, hb, h2⟩
    exact ⟨by simpa using h1, b, hb, by simpa using h2⟩

theorem forall2_map_touchIf (now2 : Nat) (cs : List String) (l : List Term) :
    List.Forall₂ sameRow l (l.map (touchIf now2 cs)) := by
  induction l with
  | nil => exact List.Forall₂.nil
  | cons t ts ih =>
    refine List.Forall₂.cons ?_ ih
    unfold touchIf
    by_cases h : t.uri ∈ cs <;> simp [h, sameRow]

theorem touchIf_nil (now2 : Nat) (l : List Term) :
    l.map (touchIf now2 []) = l := by
  induction l with
  | nil => rfl
  | cons t ts ih => simp [touchIf, ih]

/-- Touching one more concept over an already touched list is the touch
of the extended concept list. -/
theorem touchTerm_map_touchIf (now2 : Nat) (cs : List String) (c : String)
    (l : List Term) :
    touchTerm now2 (l.map (touchIf now2 cs)) c =
      l.map (touchIf now2 (c :: cs)) := by
  unfold touchTerm
  rw [List.map_map]
  apply List.map_congr_left
  intro t _
  simp only [Function.comp_apply, touchIf]
  by_cases h2 : t.uri ∈ cs
  · rw [if_pos h2, if_pos (List.mem_cons_of_mem c h2)]
    by_cases h : t.uri = c <;> simp [h]
  · by_cases h : t.uri = c
    · rw [if_neg h2,
        if_pos (show t.uri ∈ c :: cs from by rw [h]; exact List.mem_cons_self c cs)]
      simp [h]
    · have hc1 : t.uri ∉ c :: cs := by
        intro hx
        rcases List.mem_cons.mp hx with he | hm
        · exact h he
        · exact h2 hm
      rw [if_neg h2, if_neg hc1]
      simp [h]

/-- The store of the second run differs from the reconciled store S
exactly by refreshing updated_at to the second clock on the terms rows
whose uri is in terms_processed: same term_fields, same downstream
tables, same autoincrement counters, all other terms rows untouched. -/
def run2Inv (now2 : Nat) (S : Store) (rs : RunState) : Prop :=
  rs.store.terms = S.terms.map (touchIf now2 rs.processed) ∧
  rs.store.term_fields = S.term_fields ∧
  rs.store.translations = S.translations ∧
  rs.store.appeals = S.appeals ∧
  rs.store.appeal_messages = S.appeal_messages ∧
  rs.store.users = S.users ∧
  rs.store.next_term_id = S.next_term_id ∧
  rs.store.next_term_field_id = S.next_term_field_id

theorem fieldFold_noop (now : Nat) (b : Binding) (tid : Nat) :
    ∀ (fms : List FieldMapping) (rs : RunState),
      (∀ fm, fm ∈ fms → ∀ v, bget b fm.name = some v → ¬ v = "" →
        hasFact rs.store.term_fields tid fm.field_uri v = true) →
      fms.foldl (processField now b tid) rs = rs := by
  intro fms
  induction fms with
  | nil => intro rs _; rfl
  | cons fm rest ih =>
    intro rs hall
    have hstep : processField now b tid rs fm = rs := by
      cases hb : bget b fm.name with
      | none => exact processField_none now b tid rs fm hb
      | some v =>
        by_cases hv : v = ""
        · exact processField_blank now b tid rs fm v hb hv
        · exact processField_dup now b tid rs fm v hb hv
            (hall fm (List.mem_cons_self fm rest) v hb hv)
    rw [List.foldl_cons, hstep]
    exact ih rs (fun fm2 h2 => hall fm2 (List.mem_cons_of_mem fm h2))

theorem resolveTerm_run2 (now2 : Nat) (S : Store) (rs : RunState) (c : String)
    (t2 : Term) (hf2 : findTerm rs.store.terms c = some t2)
    (hI : run2Inv now2 S rs) :
    run2Inv now2 S (resolveTerm now2 rs c) ∧
    (resolveTerm now2 rs c).stats.terms_inserted = rs.stats.terms_inserted ∧
    (resolveTerm now2 rs c).stats.term_fields_inserted =
      rs.stats.term_fields_inserted ∧
    (∃ t3, findTerm (resolveTerm now2 rs c).store.terms c = some t3 ∧
      t3.id = t2.id) ∧
    c ∈ (resolveTerm now2 rs c).processed ∧
    (∀ x, x ∈ rs.processed → x ∈ (resolveTerm now2 rs c).processed) ∧
    (∀ x, x ∈ (resolveTerm now2 rs c).processed → x = c ∨ x ∈ rs.processed) := by
  by_cases hp : rs.processed.contains c = true
  · rw [resolveTerm_skip now2 rs c hp]
    have hm : c ∈ rs.processed := by simpa using hp
    exact ⟨hI, rfl, rfl, ⟨t2, hf2, rfl⟩, hm, fun x hx => hx, fun x hx => Or.inr hx⟩
  · have hp2 : rs.processed.contains c = false := by simpa using hp
    rw [resolveTerm_some now2 rs c t2 hp2 hf2]
    refine ⟨⟨?_, hI.2.1, hI.2.2.1, hI.2.2.2.1, hI.2.2.2.2.1, hI.2.2.2.2.2.1,
      hI.2.2.2.2.2.2.1, hI.2.2.2.2.2.2.2⟩, rfl, rfl, ?_, ?_, ?_, ?_⟩
    · show touchTerm now2 rs.store.terms c =
        S.terms.map (touchIf now2 (c :: rs.processed))
      rw [hI.1]
      exact touchTerm_map_touchIf now2 rs.processed c S.terms
    · have h2 := forall2_touch now2 c (forall2_sameRow_refl rs.store.terms)
      obtain ⟨t3, hf3, hsr3⟩ := (findTerm_forall2 h2 c).2 t2 hf2
      exact ⟨t3, hf3, hsr3.1⟩
    · exact List.mem_cons_self c rs.processed
    · exact fun x hx => List.mem_cons_of_mem c hx
    · exact fun x hx => List.mem_cons.mp hx

theorem run2_step (now2 : Nat) (S : Store) (rs : RunState) (b : Binding)
    (hb : bindingDone S b) (hI : run2Inv now2 S rs) :
    run2Inv now2 S (processBinding now2 rs b) ∧
    (processBinding now2 rs b).stats.terms_inserted = rs.stats.terms_inserted ∧
    (processBinding now2 rs b).stats.term_fields_inserted =
      rs.stats.term_fields_inserted ∧
    (∀ x, x ∈ rs.processed → x ∈ (processBinding now2 rs b).processed) ∧
    (¬ (bget b "concept").getD "" = "" →
      (bget b "concept").getD "" ∈ (processBinding now2 rs b).processed) ∧
    (∀ x, x ∈ (processBinding now2 rs b).processed →
      (x = (bget b "concept").getD "" ∧ ¬ x = "") ∨ x ∈ rs.processed) := by
  by_cases hc : (bget b "concept").getD "" = ""
  · rw [processBinding_empty now2 rs b hc]
    exact ⟨hI, rfl, rfl, fun x hx => hx, fun h => absurd hc h,
      fun x hx => Or.inr hx⟩
  · rcases hb with hce | ⟨t, hfS, hfacts⟩
    · exact absurd hce hc
    have hF : List.Forall₂ sameRow S.terms rs.store.terms := by
      rw [hI.1]
      exact forall2_map_touchIf now2 rs.processed S.terms
    obtain ⟨t2, hf2, hsr2⟩ := (findTerm_forall2 hF _).2 t hfS
    obtain ⟨hI1, e1, e2, ⟨t3, hf3, hid3⟩, hcmem, hmono, hbound⟩ :=
      resolveTerm_run2 now2 S rs ((bget b "concept").getD "") t2 hf2 hI
    rw [processBinding_go now2 rs b t3 hc hf3]
    have hnoop : FIELD_MAPPINGS.foldl (processField now2 b t3.id)
        (resolveTerm now2 rs ((bget b "concept").getD "")) =
        resolveTerm now2 rs ((bget b "concept").getD "") := by
      apply fieldFold_noop
      intro fm hfm v hv hne
      have hfact := hfacts fm hfm v hv hne
      have hfields : (resolveTerm now2 rs ((bget b "concept").getD "")).store.term_fields
          = S.term_fields := hI1.2.1
      rw [hfields, hid3, hsr2.1]
      exact (hasFact_iff _ _ _ _).mpr hfact
    rw [hnoop]
    refine ⟨hI1, e1, e2, hmono, fun _ => hcmem, ?_⟩
    intro x hx
    rcases hbound x hx with heq | hold
    · refine Or.inl ⟨heq, ?_⟩
      rw [heq]
      exact hc
    · exact Or.inr hold

theorem run2_all (now2 : Nat) (S : Store) :
    ∀ (bs : List Binding) (rs : RunState),
      (∀ b, b ∈ bs → bindingDone S b) → run2Inv now2 S rs →
      run2Inv now2 S (bs.foldl (processBinding now2) rs) ∧
      (bs.foldl (processBinding now2) rs).stats.terms_inserted =
        rs.stats.terms_inserted ∧
      (bs.foldl (processBinding now2) rs).stats.term_fields_inserted =
        rs.stats.term_fields_inserted ∧
      (∀ b, b ∈ bs → ¬ (bget b "concept").getD "" = "" →
        (bget b "concept").getD "" ∈
          (bs.foldl (processBinding now2) rs).processed) ∧
      (∀ x, x ∈ (bs.foldl (processBinding now2) rs).processed →
        (∃ b, b ∈ bs ∧ x = (bget b "concept").getD "" ∧ ¬ x = "") ∨
          x ∈ rs.processed) ∧
      (∀ x, x ∈ rs.processed →
        x ∈ (bs.foldl (processBinding now2) rs).processed) := by
  intro bs
  induction bs with
  | nil =>
    intro rs _ hI
    exact ⟨hI, rfl, rfl, fun b hb => absurd hb (List.not_mem_nil b),
      fun x hx => Or.inr hx, fun x hx => hx⟩
  | cons b rest ih =>
    intro rs hall hI
    obtain ⟨hI2, e1, e2, hmono1, hcmem1, hbound1⟩ := run2_step now2 S rs b
      (hall b (List.mem_cons_self b rest)) hI
    obtain ⟨hIf, f1, f2, hconcf, hboundf, hmonof⟩ :=
      ih (processBinding now2 rs b)
        (fun b2 h2 => hall b2 (List.mem_cons_of_mem b h2)) hI2
    rw [List.foldl_cons]
    refine ⟨hIf, f1.trans e1, f2.trans e2, ?_, ?_, ?_⟩
    · intro b2 hb2 hne
      rcases List.mem_cons.mp hb2 with heq | hr
      · subst heq
        exact hmonof _ (hcmem1 hne)
      · exact hconcf b2 hr hne
    · intro x hx
      rcases hboundf x hx with ⟨b2, hb2, heq, hne⟩ | hmid
      · exact Or.inl ⟨b2, List.mem_cons_of_mem b hb2, heq, hne⟩
      · rcases hbound1 x hmid with ⟨heq, hne⟩ | hold
        · exact Or.inl ⟨b, List.mem_cons_self b rest, heq, hne⟩
        · exact Or.inr hold
    · exact fun x hx => hmonof x (hmono1 x hx)

/-- Claim C1, amended: re-running the harvest over an unchanged record
set inserts zero new Terms and zero new TermFields, and leaves the store
identical except for updated_at of the harvested terms: term_fields,
translations, appeals, appeal_messages, users and both autoincrement
counters are unchanged, and the final terms table is exactly the first
run terms table with updated_at set to the second run clock on the rows
whose uri is the non-empty concept of some record, every other row (its
updated_at included) byte-for-byte unchanged. -/
theorem second_run_inserts_nothing (now1 now2 : Nat) (s : Store)
    (bs : List Binding) :
    (insert_results now2 (insert_results now1 s bs).1 bs).2.terms_inserted = 0 ∧
    (insert_results now2 (insert_results now1 s bs).1 bs).2.term_fields_inserted = 0 ∧
    (insert_results now2 (insert_results now1 s bs).1 bs).1.term_fields =
      (insert_results now1 s bs).1.term_fields ∧
    (insert_results now2 (insert_results now1 s bs).1 bs).1.translations =
      (insert_results now1 s bs).1.translations ∧
    (insert_results now2 (insert_results now1 s bs).1 bs).1.appeals =
      (insert_results now1 s bs).1.appeals ∧
    (insert_results now2 (insert_results now1 s bs).1 bs).1.appeal_messages =
      (insert_results now1 s bs).1.appeal_messages ∧
    (insert_results now2 (insert_results now1 s bs).1 bs).1.users =
      (insert_results now1 s bs).1.users ∧
    (insert_results now2 (insert_results now1 s bs).1 bs).1.next_term_id =
      (insert_results now1 s bs).1.next_term_id ∧
    (insert_results now2 (insert_results now1 s bs).1 bs).1.next_term_field_id =
      (insert_results now1 s bs).1.next_term_field_id ∧
    (insert_results now2 (insert_results now1 s bs).1 bs).1.terms =
      (insert_results now1 s bs).1.terms.map
        (fun t => if isHarvested bs t.uri then { t with updated_at := now2 }
          else t) := by
  have hDone : ∀ b, b ∈ bs →
      bindingDone (insert_results now1 s bs).1 b := by
    have h := run1_inv now1 bs ⟨s, ⟨0, 0, 0⟩, []⟩
      (fun c hc => absurd hc (List.not_mem_nil c))
    exact h.2
  have hI0 : run2Inv now2 (insert_results now1 s bs).1
      ⟨(insert_results now1 s bs).1, ⟨0, 0, 0⟩, []⟩ :=
    ⟨(touchIf_nil now2 _).symm, rfl, rfl, rfl, rfl, rfl, rfl, rfl⟩
  obtain ⟨hI, e1, e2, hconc, hbound, _⟩ := run2_all now2
    (insert_results now1 s bs).1 bs
    ⟨(insert_results now1 s bs).1, ⟨0, 0, 0⟩, []⟩ hDone hI0
  refine ⟨e1, e2, hI.2.1, hI.2.2.1, hI.2.2.2.1, hI.2.2.2.2.1,
    hI.2.2.2.2.2.1, hI.2.2.2.2.2.2.1, hI.2.2.2.2.2.2.2, ?_⟩
  refine hI.1.trans ?_
  apply List.map_congr_left
  intro t _
  by_cases hmem : t.uri ∈
      (bs.foldl (processBinding now2)
        ⟨(insert_results now1 s bs).1, ⟨0, 0, 0⟩, []⟩).processed
  · have hH : isHarvested bs t.uri = true := by
      rcases hbound t.uri hmem with ⟨b, hb, heq, hne⟩ | habs
      · exact (isHarvested_iff bs t.uri).mpr ⟨hne, b, hb, heq.symm⟩
      · exact absurd habs (List.not_mem_nil _)
    simp [touchIf, hmem, hH]
  · have hH : ¬ isHarvested bs t.uri = true := by
      intro hcontra
      obtain ⟨hne, b, hb, heq⟩ := (isHarvested_iff bs t.uri).mp hcontra
      refine hmem ?_
      have hin := hconc b hb ?_
      · exact heq ▸ hin
      · rw [heq]
        exact hne
    simp [touchIf, hmem, hH]

/-- The empty database as create_database builds it: empty tables,
autoincrement counters at 1. -/
def cEmptyStore : Store := ⟨[], [], [], [], [], [], 1, 1⟩

/-- Claim C1 counterexample: the final store content after the second
run is not identical to the content after the first run when the second
run commits under a later clock (CURRENT_TIMESTAMP has moved on): the
re-harvested term carries a fresh updated_at. -/
theorem second_run_store_not_identical :
    ¬ ((insert_results 1 (insert_results 0 cEmptyStore [cDupB]).1 [cDupB]).1 =
      (insert_results 0 cEmptyStore [cDupB]).1) := by decide

/-! ## The per-page summaries of the driver -/

theorem pageStats_length (now : Nat) (pages : Nat → List Binding) :
    ∀ (offs : List Nat) (s : Store),
      (pageStats now pages offs s).length = offs.length := by
  intro offs
  induction offs with
  | nil => intro s; rfl
  | cons o rest ih => intro s; simp [pageStats, ih]

/-- Claim C9, amended: on reaching the end of the page loop the pipeline
has emitted exactly one summary per page, in fetch order, the summary of
each page holding that page reconciliation counts; main emits no
aggregate summary (the aggregate is the componentwise sum of the emitted
per-page summaries, shown false as stated by the counterexample). -/
theorem per_page_summaries (now member_count : Nat)
    (pages : Nat → List Binding) (s : Store) :
    (harvest_pages now member_count pages s).2 =
      pageStats now pages (pageOffsets member_count 1000) s ∧
    (harvest_pages now member_count pages s).2.length =
      (pageOffsets member_count 1000).length := by
  have key : ∀ (offs : List Nat) (st : Store),
      (harvestLoop now pages offs st).2 = pageStats now pages offs st := by
    intro offs
    induction offs with
    | nil => intro st; rfl
    | cons o rest ih => intro st; simp [harvestLoop, pageStats, ih]
  constructor
  · exact key _ s
  · rw [harvest_pages, key]
    exact pageStats_length now pages _ s

/-- The two pages a 1001-member collection yields, each carrying one
distinct concept. -/
def cPages : Nat → List Binding := fun off =>
  if off = 0 then [[("concept", "http://a")]] else [[("concept", "http://b")]]

/-- Claim C9 counterexample: the run over two pages emits exactly the two
per-page summaries, each reporting 1 inserted term; the aggregate (2
inserted terms in total) is never emitted as a summary. -/
theorem no_aggregate_summary_emitted :
    (harvest_pages 0 1001 cPages cEmptyStore).2 =
      [⟨1, 0, 0⟩, ⟨1, 0, 0⟩] ∧
    sumStats (harvest_pages 0 1001 cPages cEmptyStore).2 = ⟨2, 0, 0⟩ ∧
    ((harvest_pages 0 1001 cPages cEmptyStore).2.all
      (fun e => e.terms_inserted != 2)) = true := by decide
